import Mathlib

/-!
Verification development for the tunfish `pki-client` repository.

The Python sources (`pki_client/crypto.py`, `pki_client/core.py`) are shallowly
embedded below.  Randomness (`os.urandom`) and the current time
(`datetime.utcnow()`) are injected as explicit parameters, following the spec's
own guidance to treat them as injected capabilities.  External libraries
(`requests`, `cryptography`, `hashids`) are modelled at their interfaces,
faithfully to their documented behaviour on the inputs this program feeds them.
-/

/-- Python exception values, as far as this program can observe them:
the exception class together with its message / payload. -/
inductive PyError where
  | valueError (msg : String)
  | keyError (key : String)
  | typeError (msg : String)
  | unboundLocal (var : String)
  deriving DecidableEq

deriving instance DecidableEq for Except

namespace Hashids

/-- `Hashids.ALPHABET`, the default alphabet of the `hashids` library. -/
def defaultAlphabet : List Char :=
  "abcdefghijklmnopqrstuvwxyzABCDEFGHIJKLMNOPQRSTUVWXYZ1234567890".data

/-- The default separator candidates `'cfhistuCFHISTU'` of the `hashids`
library. -/
def sepCandidates : List Char := "cfhistuCFHISTU".data

/-- `''.join(x for i, x in enumerate(s) if s.index(x) == i)`: keep only the
first occurrence of each character (`seen` are the characters already kept). -/
def uniqueFirstAux (seen : List Char) : List Char → List Char
  | [] => []
  | c :: rest =>
      if seen.contains c then uniqueFirstAux seen rest
      else c :: uniqueFirstAux (seen ++ [c]) rest

def uniqueFirst (l : List Char) : List Char := uniqueFirstAux [] l

/-- One pass of the `_reorder` loop of `hashids`: indices `i` run from
`len - 1` down to `1`, swapping positions `i` and `j`. -/
def reorderLoop (salt : List Char) : Nat → Nat → Nat → List Char → List Char
  | 0, _, _, s => s
  | i + 1, index, isum, s =>
      let integer := (salt.getD index ' ').toNat
      let isum' := isum + integer
      let j := (integer + index + isum') % (i + 1)
      let s' := (s.set (i + 1) (s.getD j ' ')).set j (s.getD (i + 1) ' ')
      reorderLoop salt i ((index + 1) % salt.length) isum' s'

/-- `_reorder(string, salt)` of the `hashids` library: the salt-keyed
consistent shuffle.  An empty salt leaves the string unchanged. -/
def reorder (s salt : List Char) : List Char :=
  if salt.length = 0 then s else reorderLoop salt (s.length - 1) 0 0 s

/-- `_hash(number, alphabet)` of the `hashids` library: write `n` in base
`alphabet.length`, most significant digit first, emitting at least one digit.
`fuel` only serves termination: the quotient shrinks strictly at every
recursive call (the alphabet always has at least 16 characters), so
`fuel = n` never runs out. -/
def hashNumberAux (alphabet : List Char) : Nat → Nat → List Char
  | 0, n => [alphabet.getD (n % alphabet.length) ' ']
  | fuel + 1, n =>
      if n / alphabet.length = 0 then [alphabet.getD (n % alphabet.length) ' ']
      else hashNumberAux alphabet fuel (n / alphabet.length)
        ++ [alphabet.getD (n % alphabet.length) ' ']

def hashNumber (alphabet : List Char) (n : Nat) : List Char :=
  hashNumberAux alphabet n n

/-!
`Hashids.__init__` for the default alphabet and `min_length = 0`, rendered as
one definition per assignment.
-/

/-- `separators = ''.join(x for x in separators if x in alphabet)`. -/
def seps0 : List Char := sepCandidates.filter (fun c => defaultAlphabet.contains c)

/-- `alphabet = ''.join(x for i, x in enumerate(alphabet) if
alphabet.index(x) == i and x not in separators)`. -/
def alpha0 : List Char :=
  (uniqueFirst defaultAlphabet).filter (fun c => !(seps0.contains c))

/-- `separators = _reorder(separators, salt)`. -/
def seps1 (salt : List Char) : List Char := reorder seps0 salt

/-- `min_separators = int(math.ceil(float(len(alphabet)) / 3.5))`, as exact
rational arithmetic: `ceil(2 * len / 7)`. -/
def minSeps : Nat := (2 * alpha0.length + 6) / 7

/-- The separator top-up branch: when there are no or too few separators,
characters move from the alphabet to the separators. -/
def adjusted (salt : List Char) : List Char × List Char :=
  if (seps1 salt).length = 0 ∨ (seps1 salt).length < minSeps then
    let minSeps' := if minSeps = 1 then 2 else minSeps
    if (seps1 salt).length < minSeps' then
      ((alpha0.drop (minSeps' - (seps1 salt).length)),
        seps1 salt ++ alpha0.take (minSeps' - (seps1 salt).length))
    else (alpha0, seps1 salt)
  else (alpha0, seps1 salt)

/-- `alphabet = _reorder(alphabet, salt)`. -/
def alpha2 (salt : List Char) : List Char := reorder (adjusted salt).1 salt

/-- `num_guards = int(math.ceil(float(len(alphabet)) / 12))`. -/
def numGuards (salt : List Char) : Nat := ((alpha2 salt).length + 11) / 12

/-- The alphabet / separators / guards computed by `Hashids.__init__` for the
default alphabet, `min_length = 0` and the given salt.  Field order:
(alphabet, separators, guards). -/
def setup (salt : List Char) : List Char × List Char × List Char :=
  if (alpha2 salt).length < 3 then
    (alpha2 salt, (adjusted salt).2.drop (numGuards salt), (adjusted salt).2.take (numGuards salt))
  else
    ((alpha2 salt).drop (numGuards salt), (adjusted salt).2, (alpha2 salt).take (numGuards salt))

/-- The per-value loop of `_encode` of the `hashids` library, threading the
loop index `i`, the current alphabet, and the accumulated output. -/
def encodeLoop (salt seps : List Char) (lexeme : Char) :
    Nat → List Char → List Nat → List Char → List Char
  | _, _, [], acc => acc
  | i, alphabet, v :: rest, acc =>
      let asalt := (lexeme :: (salt ++ alphabet)).take alphabet.length
      let alphabet' := reorder alphabet asalt
      let last := hashNumber alphabet' v
      let v' := v % ((last.headD ' ').toNat + i)
      encodeLoop salt seps lexeme (i + 1) alphabet'
        rest (acc ++ last ++ [seps.getD (v' % seps.length) ' '])

/-- `_encode(values, ...)` of the `hashids` library for `min_length = 0`:
choose the lexeme from the values hash, run the per-value loop, and drop the
final separator. -/
def encodeCore (salt : List Char) (values : List Nat) : List Char :=
  let alphabet := (setup salt).1
  let seps := (setup salt).2.1
  let valuesHash := ((List.range values.length).zip values).map
      (fun p => p.2 % (p.1 + 100)) |>.sum
  let lexeme := alphabet.getD (valuesHash % alphabet.length) ' '
  (encodeLoop salt seps lexeme 0 alphabet values [lexeme]).dropLast

/-- `Hashids(salt=salt).encode(*values)`: returns `''` unless at least one
value is supplied and all values are non-negative integers. -/
def encode (salt : String) (values : List Int) : String :=
  if values.isEmpty ∨ values.any (· < 0) then ""
  else ⟨encodeCore salt.data (values.map Int.toNat)⟩

end Hashids

namespace Nagamani

/-- `Nagamani.precisions`: the scaling factor applied to the duration in
seconds, keyed by precision selector. -/
def precisions : List (String × Nat) := [("s", 1), ("ms", 1000), ("ns", 1000000)]

/-- `Nagamani.hashify(salt, *data)`: encode the data with a salted Hashids
instance. -/
def hashify (salt : String) (data : List Int) : String := Hashids.encode salt data

/-- `int(duration.total_seconds() * scaling)` where `duration` is a
`timedelta` of `durMicros` microseconds: the exact product truncated toward
zero (`timedelta` has microsecond resolution; the float detour of
`total_seconds()` is modelled as exact rational arithmetic). -/
def durationScaled (durMicros : Int) (scaling : Nat) : Int :=
  Int.tdiv (durMicros * scaling) 1000000

/-- `Nagamani.nagamani_id(year, salt, precision)`, with the current time
injected: `durMicros` is `utcnow() - datetime(year, 1, 1)` in microseconds.
`precisions.get` returns `None` for an unknown precision, which the
multiplication then rejects with a `TypeError`. -/
def nagamani_id (salt : String) (durMicros : Int) (precision : String) :
    Except PyError String :=
  match precisions.lookup precision with
  | none => .error (.typeError "unsupported operand type(s) for *: 'float' and 'NoneType'")
  | some scaling => .ok (hashify salt [durationScaled durMicros scaling])

end Nagamani

namespace Nagamani19

/-- `Nagamani19.size_map`. -/
def size_map : List (String × String) :=
  [("small", "s"), ("medium", "ms"), ("large", "ns")]

/-- `Nagamani19.get_precision(selector)`: `selector = selector or "large"`
treats the falsy values (`None` and `""`) as the default `"large"`;
`size_map[selector]` raises `KeyError` for an unrecognized selector. -/
def get_precision (selector : Option String) : Except PyError String :=
  let sel := match selector with
    | none => "large"
    | some s => if s = "" then "large" else s
  match size_map.lookup sel with
  | some p => .ok p
  | none => .error (.keyError sel)

/-- `Nagamani19.generate(size)`, with the salt (from `gensalt()`) and the
duration since 2019-01-01T00:00:00Z (in microseconds) injected. -/
def generate (salt : String) (durMicros : Int) (size : Option String) :
    Except PyError String := do
  let precision ← get_precision size
  Nagamani.nagamani_id salt durMicros precision

end Nagamani19

/-- The X.509 object identifier `NameOID.COMMON_NAME`. -/
def commonNameOid : String := "2.5.4.3"

/-- A certificate signing request, as far as this program builds one: the
subject name (a list of OID/value attributes) and the signature hash. -/
structure CSR where
  subject : List (String × String)
  sigHash : String
  deriving DecidableEq

namespace AsymmetricKey

/-- `AsymmetricKey.make_csr(common_name_prefix)`, with the identifier
generator's salt and timestamp injected.  The common name is the freshly
generated identifier, prefixed with `"{p}-"` when the supplied p is
truthy (a non-empty string). -/
def make_csr (salt : String) (durMicros : Int) (cnPfx : Option String) :
    Except PyError CSR := do
  let common_name ← Nagamani19.generate salt durMicros none
  let common_name := match cnPfx with
    | some p => if p = "" then common_name else p ++ "-" ++ common_name
    | none => common_name
  .ok ⟨[(commonNameOid, common_name)], "SHA512"⟩

/-- `AsymmetricKey.get_csr()`: the CSR in PEM form.  The exact serialization
of a request is external to this repository; it is modelled as an injective
rendering of the CSR.  Nothing in the program inspects these bytes — they
are only handed to the CA verbatim. -/
def get_csr (c : CSR) : String :=
  "-----BEGIN CERTIFICATE REQUEST-----\n"
    ++ String.intercalate "," (c.subject.map (fun a => a.1 ++ "=" ++ a.2))
    ++ "\n-----END CERTIFICATE REQUEST-----\n"

end AsymmetricKey

namespace Pem

/-!
Interface model of `cryptography`'s PEM handling, at the level of detail the
program observes.  A parsed certificate is represented by its base64 payload
text (base64 is a bijection between DER byte strings and well-formed base64
text, and no code in this repository inspects the DER itself, so the payload
text is a faithful stand-in for the certificate object).
-/

/-- Split a character list at every newline.  The result always has one more
entry than the number of `'\n'` characters. -/
def splitOnNl : List Char → List (List Char)
  | [] => [[]]
  | c :: rest =>
      if c = '\n' then [] :: splitOnNl rest
      else match splitOnNl rest with
        | [] => [[c]]
        | l :: ls => (c :: l) :: ls

/-- Drop a trailing carriage return, so that CRLF-terminated lines are
recognized (as the underlying OpenSSL/pem parsers do). -/
def stripCR (line : List Char) : List Char :=
  if line.getLast? = some '\r' then line.dropLast else line

def beginMarker : List Char := "-----BEGIN CERTIFICATE-----".data

def endMarker : List Char := "-----END CERTIFICATE-----".data

/-- Skip (tolerated) leading junk until the BEGIN marker line; `none` when no
marker is present. -/
def findBegin : List (List Char) → Option (List (List Char))
  | [] => none
  | l :: ls => if l = beginMarker then some ls else findBegin ls

/-- Collect payload lines strictly before the END marker line; `none` when
the END marker never comes. -/
def collectUntilEnd : List (List Char) → Option (List (List Char))
  | [] => none
  | l :: ls =>
      if l = endMarker then some []
      else match collectUntilEnd ls with
        | none => none
        | some r => some (l :: r)

/-- Characters admissible in a base64 payload (including padding). -/
def base64Char (c : Char) : Bool := c.isAlphanum || c = '+' || c = '/' || c = '='

/-- `x509.load_pem_x509_certificate(body)` at the interface: locate the PEM
block, join its payload lines, and require a non-empty well-formed base64
payload; `none` models the `ValueError` the library raises otherwise. -/
def pemLoad (body : String) : Option String :=
  match findBegin ((splitOnNl body.data).map stripCR) with
  | none => none
  | some afterBegin =>
    match collectUntilEnd afterBegin with
    | none => none
    | some content =>
      let payload := content.flatten
      if payload ≠ [] ∧ payload.all base64Char then some ⟨payload⟩ else none

/-- Cut a payload into the 64-character lines PEM serialization uses.
`fuel` only serves termination: each round consumes at least one character,
so `fuel = l.length` never runs out. -/
def chunk64Aux : Nat → List Char → List (List Char)
  | _, [] => []
  | 0, l => [l]
  | fuel + 1, l => l.take 64 :: chunk64Aux fuel (l.drop 64)

def chunk64 (l : List Char) : List (List Char) := chunk64Aux l.length l

/-- `Certificate.public_bytes(Encoding.PEM)` at the interface: the canonical
PEM serialization — BEGIN line, 64-character base64 lines, END line, LF
line endings. -/
def pemSerialize (payload : String) : String :=
  ⟨beginMarker ++ '\n' ::
    (chunk64 payload.data).foldr (fun line acc => line ++ '\n' :: acc)
      (endMarker ++ ['\n'])⟩

/-- A list of lines rendered with a `'\n'` after every line. -/
def joinLines (ls : List (List Char)) : List Char :=
  ls.foldr (fun line acc => line ++ '\n' :: acc) []

end Pem

/-- What the network hands back for one HTTP POST: either a failure before
any response exists (connection refused, timeout, TLS failure — the cause is
carried in the raised exception), or a final response. -/
inductive NetOutcome where
  | netError (cause : String)
  | response (status : Nat) (reason : String) (body : String)
  deriving DecidableEq

/-- The message of the `requests.HTTPError` built by
`Response.raise_for_status`. -/
def httpErrorMsg (status : Nat) (reason url : String) : String :=
  toString status
    ++ (if status < 500 then " Client Error: " else " Server Error: ")
    ++ reason ++ " for url: " ++ url

/-- `Response.raise_for_status()`: raises `HTTPError` exactly for statuses in
[400, 600); every other status — 2xx but also 1xx/3xx — passes. -/
def raise_for_status (status : Nat) (reason url : String) : Option String :=
  if 400 ≤ status ∧ status < 600 then some (httpErrorMsg status reason url) else none

/-- The message of the `ValueError` raised by `submit_csr`'s handler:
`f"Automatically signing certificate failed: {ex}. Reason: {response.text}"`. -/
def rejectionMsg (exMsg body : String) : String :=
  "Automatically signing certificate failed: " ++ exMsg ++ ". Reason: " ++ body

/-- The message of the `ValueError` raised by
`x509.load_pem_x509_certificate` on an undecodable body. -/
def pemLoadFailMsg : String := "Unable to load PEM file."

/-- The HTTP request issued by `requests.post(url, data=..., params=...,
headers=...)`. -/
structure HttpRequest where
  url : String
  params : List (String × String)
  headers : List (String × String)
  body : String
  deriving DecidableEq

/-- What one call to `AsymmetricKey.submit_csr` did: the request it issued,
the returned PEM bytes or the raised exception, and the value of the
`self.cert` field afterwards (`cert₀` being its value before the call). -/
structure SubmitResult where
  request : HttpRequest
  outcome : Except PyError String
  cert : Option String
  deriving DecidableEq

namespace AsymmetricKey

/-- `AsymmetricKey.submit_csr(url, profile)`.  The `try` block covers the
POST and `raise_for_status`; its handler interpolates `response.text`, which
is unbound when the POST itself raised, so that path dies with
`UnboundLocalError` instead of the intended `ValueError`.  A 4xx/5xx status
becomes the `ValueError` carrying the `HTTPError` text and the body; any
other response is fed to the PEM parser, whose failure propagates as its own
`ValueError`. -/
def submit_csr (cert₀ : Option String) (csr_pem url pro : String)
    (net : NetOutcome) : SubmitResult :=
  let req : HttpRequest :=
    ⟨url, [("profile", pro)], [("Content-Type", "application/x-pem-file")], csr_pem⟩
  match net with
  | .netError _cause => ⟨req, .error (.unboundLocal "response"), cert₀⟩
  | .response status reason body =>
    match raise_for_status status reason url with
    | some exMsg => ⟨req, .error (.valueError (rejectionMsg exMsg body)), cert₀⟩
    | none =>
      match Pem.pemLoad body with
      | none => ⟨req, .error (.valueError pemLoadFailMsg), cert₀⟩
      | some payload => ⟨req, .ok (Pem.pemSerialize payload), some payload⟩

end AsymmetricKey

/-- Characters admissible in a URL scheme after the leading letter. -/
def isSchemeChar (c : Char) : Bool := c.isAlphanum || c = '+' || c = '-' || c = '.'

/-- Split `scheme://netloc...` into scheme and network location, as
`urllib.parse.urlsplit` does: the scheme is the run before the first `':'`
(all scheme characters, starting with a letter), the netloc runs from after
`"//"` up to the first `'/'`, `'?'` or `'#'`. -/
def splitSchemeNetloc (base : List Char) : Option (List Char × List Char) :=
  let scheme := base.takeWhile (· != ':')
  let rest := base.dropWhile (· != ':')
  if rest.take 3 = [':', '/', '/'] then
    if scheme ≠ [] ∧ scheme.all isSchemeChar ∧ (scheme.headD ' ').isAlpha then
      some (scheme, (rest.drop 3).takeWhile (fun c => c != '/' && c != '?' && c != '#'))
    else none
  else none

/-- `urllib.parse.urljoin(base, ref)` for a reference that is an absolute
path (both references this program joins start with `"/"`): the result is
the base's scheme and authority with the reference as the entire path — any
path of the base is discarded.  Without a recognizable scheme/authority the
reference itself is returned. -/
def urljoinAbsPath (base ref : String) : String :=
  match splitSchemeNetloc base.data with
  | some (scheme, netloc) => ⟨scheme⟩ ++ "://" ++ (⟨netloc⟩ : String) ++ ref
  | none => ref

namespace PkiClient

/-- `PkiClient.autocert_url`. -/
def autocert_url (ca_baseurl ca_name : String) : String :=
  urljoinAbsPath ca_baseurl ("/pki/" ++ ca_name ++ "/autosign")

end PkiClient

/-- The filesystem as this program touches it: an association of paths to
file contents, newest binding first (`open(..., "wb")` replaces content). -/
abbrev FS := List (String × String)

/-- One `open(filename, "wb") / f.write(data)` sequence. -/
def writeFile (fs : FS) (path content : String) : FS := (path, content) :: fs

namespace PkiClient

/-- `PkiClient.mkcert(private_key_path, cert_path, profile,
common_name_prefix)`.  The fallible external primitives are injected:
`keyRes` is the outcome of `make_rsa_key` plus the key's later PEM
serialization (its only failure mode is resource exhaustion), `salt` and
`durMicros` feed the identifier generator, and `net` is the network's
answer to the CSR submission.  Key and certificate are saved only after a
successful submission, in that order. -/
def mkcert (fs : FS) (ca_baseurl ca_name : String)
    (private_key_path cert_path pro : String) (cnPfx : Option String)
    (keyRes : Except PyError String) (salt : String) (durMicros : Int)
    (net : NetOutcome) : FS × Except PyError Unit :=
  match keyRes with
  | .error e => (fs, .error e)
  | .ok keyPem =>
    match AsymmetricKey.make_csr salt durMicros cnPfx with
    | .error e => (fs, .error e)
    | .ok csr =>
      let r := AsymmetricKey.submit_csr none (AsymmetricKey.get_csr csr)
          (autocert_url ca_baseurl ca_name) pro net
      match r.outcome with
      | .error e => (fs, .error e)
      | .ok certPem =>
          (writeFile (writeFile fs private_key_path keyPem) cert_path certPem, .ok ())

end PkiClient

/-- `p` occurs verbatim inside `s`. -/
def strInfix (p s : String) : Prop := p.data <:+: s.data

/-- Whether a network outcome lets `submit_csr` return a certificate: a
response outside [400, 600) whose body decodes as a PEM certificate.  Every
other outcome makes `submit_csr` raise. -/
def caAccepts (net : NetOutcome) : Bool :=
  match net with
  | .netError _ => false
  | .response status _ body =>
      if 400 ≤ status ∧ status < 600 then false else (Pem.pemLoad body).isSome

/-! ## Supporting lemmas -/

theorem getD_mem_of_lt {l : List Char} {n : Nat} (h : n < l.length) (d : Char) :
    l.getD n d ∈ l := by
  rw [List.getD_eq_getElem l d h]
  exact List.getElem_mem h

namespace Hashids

theorem reorderLoop_length (salt : List Char) :
    ∀ (i idx isum : Nat) (s : List Char),
      (reorderLoop salt i idx isum s).length = s.length := by
  intro i
  induction i with
  | zero => intro idx isum s; rfl
  | succ n ih =>
      intro idx isum s
      simp only [reorderLoop]
      rw [ih]
      simp

theorem reorderLoop_mem (salt : List Char) :
    ∀ (i idx isum : Nat) (s : List Char), i < s.length →
      ∀ x ∈ reorderLoop salt i idx isum s, x ∈ s := by
  intro i
  induction i with
  | zero => intro idx isum s _ x hx; exact hx
  | succ n ih =>
      intro idx isum s hi x hx
      simp only [reorderLoop] at hx
      set j := ((salt.getD idx ' ').toNat + idx + (isum + (salt.getD idx ' ').toNat)) % (n + 1) with hj
      have hjlt : j < n + 1 := Nat.mod_lt _ (Nat.succ_pos n)
      have hjs : j < s.length := Nat.lt_trans hjlt hi
      have hlen : ((s.set (n + 1) (s.getD j ' ')).set j (s.getD (n + 1) ' ')).length = s.length := by
        simp
      have hx' := ih _ _ _ (by rw [hlen]; exact Nat.lt_of_succ_lt hi) x hx
      rcases List.mem_or_eq_of_mem_set hx' with hx'' | rfl
      · rcases List.mem_or_eq_of_mem_set hx'' with hx3 | rfl
        · exact hx3
        · exact getD_mem_of_lt hjs ' '
      · exact getD_mem_of_lt hi ' '

theorem reorder_length (s salt : List Char) : (reorder s salt).length = s.length := by
  unfold reorder
  split
  · rfl
  · exact reorderLoop_length salt _ 0 0 s

theorem reorder_mem (s salt : List Char) : ∀ x ∈ reorder s salt, x ∈ s := by
  unfold reorder
  split
  · exact fun x hx => hx
  · intro x hx
    cases s with
    | nil => simp [reorderLoop] at hx
    | cons a as =>
        exact reorderLoop_mem salt _ 0 0 (a :: as) (by simp) x hx

theorem hashNumberAux_mem (alphabet : List Char) (hne : alphabet ≠ []) :
    ∀ (fuel n : Nat), ∀ x ∈ hashNumberAux alphabet fuel n, x ∈ alphabet := by
  have hpos : 0 < alphabet.length := List.length_pos.2 hne
  intro fuel
  induction fuel with
  | zero =>
      intro n x hx
      simp only [hashNumberAux, List.mem_singleton] at hx
      exact hx ▸ getD_mem_of_lt (Nat.mod_lt _ hpos) ' '
  | succ f ih =>
      intro n x hx
      simp only [hashNumberAux] at hx
      split at hx
      · simp only [List.mem_singleton] at hx
        exact hx ▸ getD_mem_of_lt (Nat.mod_lt _ hpos) ' '
      · rcases List.mem_append.1 hx with hx' | hx'
        · exact ih _ x hx'
        · simp only [List.mem_singleton] at hx'
          exact hx' ▸ getD_mem_of_lt (Nat.mod_lt _ hpos) ' '

theorem hashNumberAux_length (alphabet : List Char) (h2 : 2 ≤ alphabet.length) :
    ∀ (fuel k n : Nat), n < alphabet.length ^ k →
      (hashNumberAux alphabet fuel n).length ≤ max k 1 := by
  intro fuel
  induction fuel with
  | zero => intro k n _; simp [hashNumberAux]
  | succ f ih =>
      intro k n hn
      simp only [hashNumberAux]
      split
      · simp
      · rename_i hdiv
        cases k with
        | zero =>
            have hn0 : n = 0 := by simpa using hn
            exact absurd (by simp [hn0]) hdiv
        | succ k' =>
            have hq : n / alphabet.length < alphabet.length ^ k' := by
              rw [Nat.div_lt_iff_lt_mul (by omega)]
              calc n < alphabet.length ^ (k' + 1) := hn
                _ = alphabet.length ^ k' * alphabet.length := by rw [pow_succ]
            have hrec := ih k' (n / alphabet.length) hq
            cases k' with
            | zero =>
                exact absurd (Nat.div_eq_of_lt (by simpa using hn)) hdiv
            | succ k'' =>
                simp only [List.length_append, List.length_singleton]
                have h1 : max (k'' + 1) 1 = k'' + 1 := by omega
                have h2' : max (k'' + 1 + 1) 1 = k'' + 2 := by omega
                omega

theorem encodeLoop_pred (salt seps : List Char) (lexeme : Char) (P : Char → Prop)
    (hsne : seps ≠ []) (hsp : ∀ c ∈ seps, P c) :
    ∀ (values : List Nat) (i : Nat) (alphabet acc : List Char),
      alphabet ≠ [] → (∀ c ∈ alphabet, P c) → (∀ c ∈ acc, P c) →
      ∀ x ∈ encodeLoop salt seps lexeme i alphabet values acc, P x := by
  intro values
  induction values with
  | nil => intro i alphabet acc _ _ hacc x hx; exact hacc x hx
  | cons v rest ih =>
      intro i alphabet acc hane halpha hacc x hx
      simp only [encodeLoop] at hx
      refine ih (i + 1) _ _ ?_ ?_ ?_ x hx
      · intro h0
        exact hane (List.length_eq_zero.1 (by rw [← reorder_length alphabet _, h0]; rfl))
      · exact fun c hc => halpha c (reorder_mem _ _ c hc)
      · intro c hc
        rcases List.mem_append.1 hc with hc' | hc'
        · rcases List.mem_append.1 hc' with hc'' | hc''
          · exact hacc c hc''
          · have hane' : reorder alphabet ((lexeme :: (salt ++ alphabet)).take alphabet.length) ≠ [] := by
              intro h0
              exact hane (List.length_eq_zero.1 (by rw [← reorder_length alphabet _, h0]; rfl))
            exact halpha c (reorder_mem _ _ c (hashNumberAux_mem _ hane' _ _ c hc''))
        · simp only [List.mem_singleton] at hc'
          exact hc' ▸ hsp _ (getD_mem_of_lt (Nat.mod_lt _ (List.length_pos.2 hsne)) ' ')

theorem seps0_eq : seps0 = sepCandidates := by decide

theorem sepCandidates_length : sepCandidates.length = 14 := by decide

theorem alpha0_length : alpha0.length = 48 := by decide

theorem alpha0_alnum : ∀ c ∈ alpha0, c.isAlphanum := by decide

theorem sepCandidates_alnum : ∀ c ∈ sepCandidates, c.isAlphanum := by decide

theorem seps1_length (salt : List Char) : (seps1 salt).length = 14 := by
  rw [seps1, reorder_length, seps0_eq, sepCandidates_length]

theorem minSeps_eq : minSeps = 14 := by decide

theorem adjusted_eq (salt : List Char) : adjusted salt = (alpha0, seps1 salt) := by
  rw [adjusted]
  rw [if_neg]
  rw [seps1_length, minSeps_eq]
  omega

theorem alpha2_length (salt : List Char) : (alpha2 salt).length = 48 := by
  rw [alpha2, reorder_length, adjusted_eq]
  exact alpha0_length

theorem numGuards_eq (salt : List Char) : numGuards salt = 4 := by
  rw [numGuards, alpha2_length]

theorem setup_eq (salt : List Char) :
    setup salt = ((alpha2 salt).drop 4, seps1 salt, (alpha2 salt).take 4) := by
  rw [setup, if_neg, numGuards_eq, adjusted_eq]
  rw [alpha2_length]
  omega

theorem setup_alpha_length (salt : List Char) : (setup salt).1.length = 44 := by
  rw [setup_eq]
  simp [alpha2_length]

theorem setup_seps_length (salt : List Char) : (setup salt).2.1.length = 14 := by
  rw [setup_eq]
  exact seps1_length salt

theorem setup_alpha_alnum (salt : List Char) : ∀ c ∈ (setup salt).1, c.isAlphanum := by
  rw [setup_eq]
  intro c hc
  have h1 : c ∈ alpha2 salt := List.drop_subset 4 _ hc
  have h2 : c ∈ (adjusted salt).1 := reorder_mem _ _ c (by rw [← alpha2]; exact h1)
  rw [adjusted_eq] at h2
  exact alpha0_alnum c h2

theorem setup_seps_alnum (salt : List Char) : ∀ c ∈ (setup salt).2.1, c.isAlphanum := by
  rw [setup_eq]
  intro c hc
  have h1 : c ∈ seps0 := reorder_mem _ _ c (by rw [← seps1]; exact hc)
  rw [seps0_eq] at h1
  exact sepCandidates_alnum c h1

theorem encodeCore_alnum (salt : List Char) (values : List Nat) :
    ∀ x ∈ encodeCore salt values, x.isAlphanum := by
  intro x hx
  have hane : (setup salt).1 ≠ [] := by
    intro h0
    have := setup_alpha_length salt
    rw [h0] at this
    simp at this
  have hsne : (setup salt).2.1 ≠ [] := by
    intro h0
    have := setup_seps_length salt
    rw [h0] at this
    simp at this
  have hx' : x ∈ encodeLoop salt (setup salt).2.1
      ((setup salt).1.getD
        ((((List.range values.length).zip values).map
          (fun p => p.2 % (p.1 + 100)) |>.sum) % (setup salt).1.length) ' ')
      0 (setup salt).1 values
      [(setup salt).1.getD
        ((((List.range values.length).zip values).map
          (fun p => p.2 % (p.1 + 100)) |>.sum) % (setup salt).1.length) ' '] := by
    exact List.dropLast_subset _ hx
  refine encodeLoop_pred salt (setup salt).2.1 _ (fun c => c.isAlphanum = true)
      hsne (setup_seps_alnum salt) values 0 _ _ hane (setup_alpha_alnum salt) ?_ x hx'
  intro c hc
  simp only [List.mem_singleton] at hc
  exact hc ▸ setup_alpha_alnum salt _
    (getD_mem_of_lt (Nat.mod_lt _ (List.length_pos.2 hane)) ' ')

theorem hashNumber_length_le (alphabet : List Char) (h44 : alphabet.length = 44)
    (n : Nat) (h : n < 44 ^ 11) : (hashNumber alphabet n).length ≤ 11 := by
  have := hashNumberAux_length alphabet (by omega) n 11 n (by rw [h44]; exact h)
  have hmax : max 11 1 = 11 := by decide
  rw [hmax] at this
  exact this

theorem encodeCore_single_length (salt : List Char) (n : Nat) (h : n < 44 ^ 11) :
    (encodeCore salt [n]).length ≤ 12 := by
  unfold encodeCore
  simp only [encodeLoop, List.dropLast_concat]
  have key : ∀ A : List Char, A.length = 44 →
      ∀ lex : Char, ([lex] ++ hashNumber A n).length ≤ 12 := by
    intro A hA lex
    rw [List.length_append, List.length_singleton]
    have := hashNumber_length_le A hA n h
    omega
  exact key _ (by rw [reorder_length, setup_alpha_length]) _

end Hashids

namespace Nagamani

theorem generate_default_eq (salt : String) (μ : Int) :
    Nagamani19.generate salt μ none = .ok (hashify salt [durationScaled μ 1000000]) := rfl

theorem durationScaled_ns (μ : Int) : durationScaled μ 1000000 = μ := by
  unfold durationScaled
  have hc : ((1000000 : Nat) : Int) = (1000000 : Int) := by norm_num
  rw [hc]
  exact Int.mul_tdiv_cancel μ (by norm_num)

theorem hashify_nonneg (salt : String) (μ : Int) (h0 : 0 ≤ μ) :
    hashify salt [μ] = ⟨Hashids.encodeCore salt.data [μ.toNat]⟩ := by
  unfold hashify Hashids.encode
  rw [if_neg]
  · rfl
  · simp [Int.not_lt.2 h0]

end Nagamani

namespace Pem

theorem splitOnNl_line (l rest : List Char) (h : '\n' ∉ l) :
    splitOnNl (l ++ '\n' :: rest) = l :: splitOnNl rest := by
  induction l with
  | nil => simp [splitOnNl]
  | cons c cs ih =>
      have hc : ¬ c = '\n' := fun e => h (e ▸ List.mem_cons_self c cs)
      have h' : '\n' ∉ cs := fun hm => h (List.mem_cons_of_mem c hm)
      simp only [List.cons_append, splitOnNl, if_neg hc, List.append_eq, ih h']

theorem splitOnNl_joinLines (ls : List (List Char)) (h : ∀ l ∈ ls, '\n' ∉ l) :
    splitOnNl (joinLines ls) = ls ++ [[]] := by
  induction ls with
  | nil => rfl
  | cons l ls ih =>
      have h1 : '\n' ∉ l := h l (List.mem_cons_self l ls)
      have h2 : ∀ x ∈ ls, '\n' ∉ x := fun x hx => h x (List.mem_cons_of_mem l hx)
      simp only [joinLines, List.foldr_cons]
      rw [show ls.foldr (fun line acc => line ++ '\n' :: acc) [] = joinLines ls from rfl]
      rw [splitOnNl_line l _ h1, ih h2]
      rfl

theorem stripCR_eq_self (l : List Char) (h : '\r' ∉ l) : stripCR l = l := by
  unfold stripCR
  rw [if_neg]
  intro hc
  rcases List.getLast?_eq_some_iff.1 hc with ⟨l', hl'⟩
  exact h (hl' ▸ List.mem_concat_self l' '\r')

theorem pemSerialize_data (payload : String) :
    (pemSerialize payload).data =
      joinLines ([beginMarker] ++ chunk64 payload.data ++ [endMarker]) := by
  simp only [pemSerialize, joinLines, List.foldr_append, List.foldr_cons, List.foldr_nil,
    List.append_nil]

theorem chunk64Aux_flatten : ∀ (fuel : Nat) (l : List Char),
    (chunk64Aux fuel l).flatten = l := by
  intro fuel
  induction fuel with
  | zero =>
      intro l
      cases l with
      | nil => rfl
      | cons c cs => simp [chunk64Aux]
  | succ f ih =>
      intro l
      cases l with
      | nil => rfl
      | cons c cs =>
          simp only [chunk64Aux, List.flatten_cons, ih]
          exact List.take_append_drop 64 (c :: cs)

theorem chunk64_flatten (l : List Char) : (chunk64 l).flatten = l :=
  chunk64Aux_flatten l.length l

theorem chunk64Aux_mem_chars : ∀ (fuel : Nat) (l : List Char) (c : List Char),
    c ∈ chunk64Aux fuel l → ∀ x ∈ c, x ∈ l := by
  intro fuel
  induction fuel with
  | zero =>
      intro l c hc x hx
      cases l with
      | nil => simp [chunk64Aux] at hc
      | cons a as =>
          simp only [chunk64Aux, List.mem_singleton] at hc
          exact hc ▸ hx
  | succ f ih =>
      intro l c hc x hx
      cases l with
      | nil => simp [chunk64Aux] at hc
      | cons a as =>
          simp only [chunk64Aux, List.mem_cons] at hc
          rcases hc with rfl | hc'
          · exact List.take_subset 64 _ hx
          · exact List.drop_subset 64 _ (ih _ c hc' x hx)

theorem collectUntilEnd_append (chunks rest : List (List Char))
    (h : ∀ l ∈ chunks, l ≠ endMarker) :
    collectUntilEnd (chunks ++ endMarker :: rest) = some chunks := by
  induction chunks with
  | nil => simp [collectUntilEnd]
  | cons c cs ih =>
      have hc : c ≠ endMarker := h c (List.mem_cons_self c cs)
      have h' : ∀ l ∈ cs, l ≠ endMarker := fun l hl => h l (List.mem_cons_of_mem c hl)
      simp only [List.cons_append, collectUntilEnd, if_neg hc, List.append_eq, ih h']

theorem pemLoad_pemSerialize (payload : String) (hne : payload.data ≠ [])
    (hb : ∀ c ∈ payload.data, base64Char c) :
    pemLoad (pemSerialize payload) = some payload := by
  have hchunkmem : ∀ c ∈ chunk64 payload.data, ∀ x ∈ c, x ∈ payload.data :=
    fun c hc x hx => chunk64Aux_mem_chars _ _ c hc x hx
  have hlines : ∀ l ∈ [beginMarker] ++ chunk64 payload.data ++ [endMarker], '\n' ∉ l := by
    intro l hl
    rcases List.mem_append.1 hl with hl' | hl'
    · rcases List.mem_append.1 hl' with hl'' | hl''
      · simp only [List.mem_singleton] at hl''
        subst hl''
        decide
      · intro hmem
        have := hb _ (hchunkmem l hl'' _ hmem)
        simp [base64Char] at this
    · simp only [List.mem_singleton] at hl'
      subst hl'
      decide
  have hnoCR : ∀ l ∈ ([beginMarker] ++ chunk64 payload.data ++ [endMarker]) ++ [[]],
      '\r' ∉ l := by
    intro l hl
    rcases List.mem_append.1 hl with hl' | hl'
    · rcases List.mem_append.1 hl' with hl'' | hl''
      · rcases List.mem_append.1 hl'' with h3 | h3
        · simp only [List.mem_singleton] at h3
          subst h3
          decide
        · intro hmem
          have := hb _ (hchunkmem l h3 _ hmem)
          simp [base64Char] at this
      · simp only [List.mem_singleton] at hl''
        subst hl''
        decide
    · simp only [List.mem_singleton] at hl'
      subst hl'
      exact List.not_mem_nil '\r'
  unfold pemLoad
  rw [pemSerialize_data, splitOnNl_joinLines _ hlines]
  rw [List.map_congr_left (fun l hl => stripCR_eq_self l (hnoCR l hl)), List.map_id']
  have hshape : ([beginMarker] ++ chunk64 payload.data ++ [endMarker]) ++ [[]]
      = beginMarker :: (chunk64 payload.data ++ endMarker :: [[]]) := by
    simp
  rw [hshape]
  rw [show findBegin (beginMarker :: (chunk64 payload.data ++ endMarker :: [[]]))
      = some (chunk64 payload.data ++ endMarker :: [[]]) by simp [findBegin]]
  simp only []
  have hchunksne : ∀ l ∈ chunk64 payload.data, l ≠ endMarker := by
    intro l hl he
    have hdash : '-' ∈ l := he ▸ (by decide : '-' ∈ endMarker)
    have := hb _ (hchunkmem l hl _ hdash)
    simp [base64Char] at this
  rw [collectUntilEnd_append _ _ hchunksne]
  simp only []
  rw [chunk64_flatten]
  rw [if_pos ⟨hne, List.all_eq_true.2 hb⟩]

end Pem

theorem takeWhile_middle (p : Char → Bool) (l₁ : List Char) (a : Char) (l₂ : List Char)
    (h : ∀ x ∈ l₁, p x = true) (ha : p a = false) :
    (l₁ ++ a :: l₂).takeWhile p = l₁ := by
  induction l₁ with
  | nil => simp [List.takeWhile_cons, ha]
  | cons c cs ih =>
      rw [List.cons_append, List.takeWhile_cons, if_pos (h c (List.mem_cons_self c cs)),
        ih (fun x hx => h x (List.mem_cons_of_mem c hx))]

theorem dropWhile_middle (p : Char → Bool) (l₁ : List Char) (a : Char) (l₂ : List Char)
    (h : ∀ x ∈ l₁, p x = true) (ha : p a = false) :
    (l₁ ++ a :: l₂).dropWhile p = a :: l₂ := by
  induction l₁ with
  | nil => simp [List.dropWhile_cons, ha]
  | cons c cs ih =>
      rw [List.cons_append, List.dropWhile_cons, if_pos (h c (List.mem_cons_self c cs)),
        ih (fun x hx => h x (List.mem_cons_of_mem c hx))]

theorem takeWhile_all (p : Char → Bool) (l : List Char) (h : ∀ x ∈ l, p x = true) :
    l.takeWhile p = l := by
  induction l with
  | nil => rfl
  | cons c cs ih =>
      rw [List.takeWhile_cons, if_pos (h c (List.mem_cons_self c cs)),
        ih (fun x hx => h x (List.mem_cons_of_mem c hx))]

theorem splitSchemeNetloc_spec (scheme host : String)
    (h1 : scheme.data ≠ []) (h2 : ∀ c ∈ scheme.data, isSchemeChar c)
    (h3 : (scheme.data.headD ' ').isAlpha)
    (h4 : ∀ c ∈ host.data, (c != '/' && c != '?' && c != '#') = true) :
    splitSchemeNetloc (scheme ++ "://" ++ host).data = some (scheme.data, host.data) := by
  have hdata : (scheme ++ "://" ++ host).data
      = scheme.data ++ ':' :: '/' :: '/' :: host.data := by
    simp [String.data_append]
  have hcolon : ∀ x ∈ scheme.data, (x != ':') = true := by
    intro x hx
    have hsc := h2 x hx
    have : x ≠ ':' := by
      intro e
      rw [e] at hsc
      simp [isSchemeChar] at hsc
    simpa [bne_iff_ne] using this
  unfold splitSchemeNetloc
  rw [hdata]
  rw [takeWhile_middle _ _ _ _ hcolon (by decide)]
  rw [dropWhile_middle _ _ _ _ hcolon (by decide)]
  simp only []
  rw [if_pos (show List.take 3 (':' :: '/' :: '/' :: host.data) = [':', '/', '/'] from rfl)]
  rw [if_pos ⟨h1, List.all_eq_true.2 h2, h3⟩]
  rw [show (':' :: '/' :: '/' :: host.data).drop 3 = host.data from rfl]
  rw [takeWhile_all _ _ h4]

theorem urljoinAbsPath_spec (scheme host ref : String)
    (h1 : scheme.data ≠ []) (h2 : ∀ c ∈ scheme.data, isSchemeChar c)
    (h3 : (scheme.data.headD ' ').isAlpha)
    (h4 : ∀ c ∈ host.data, (c != '/' && c != '?' && c != '#') = true) :
    urljoinAbsPath (scheme ++ "://" ++ host) ref = scheme ++ "://" ++ host ++ ref := by
  unfold urljoinAbsPath
  rw [splitSchemeNetloc_spec scheme host h1 h2 h3 h4]

theorem head?_append_of_some {l₁ l₂ : List Char} {a : Char} (h : l₁.head? = some a) :
    (l₁ ++ l₂).head? = some a := by
  cases l₁ with
  | nil => simp at h
  | cons c cs => simpa using h

theorem rejectionMsg_head (exMsg body : String) :
    (rejectionMsg exMsg body).data.head? = some 'A' := by
  unfold rejectionMsg
  rw [String.data_append, String.data_append, String.data_append]
  exact head?_append_of_some (head?_append_of_some (head?_append_of_some rfl))

theorem pemLoadFailMsg_ne_rejectionMsg (exMsg body : String) :
    PyError.valueError pemLoadFailMsg ≠ PyError.valueError (rejectionMsg exMsg body) := by
  intro h
  injection h with h'
  have h1 : pemLoadFailMsg.data.head? = some 'U' := rfl
  rw [h', rejectionMsg_head] at h1
  simp at h1

theorem submit_error_of_not_accepts (cert₀ : Option String) (csr url pro : String)
    (net : NetOutcome) (h : caAccepts net = false) :
    ∃ e, (AsymmetricKey.submit_csr cert₀ csr url pro net).outcome = .error e := by
  cases net with
  | netError cause => exact ⟨_, rfl⟩
  | response status reason body =>
      unfold AsymmetricKey.submit_csr raise_for_status
      simp only []
      by_cases h45 : 400 ≤ status ∧ status < 600
      · rw [if_pos h45]
        exact ⟨_, rfl⟩
      · rw [if_neg h45]
        unfold caAccepts at h
        simp only [] at h
        rw [if_neg h45] at h
        have hpem : Pem.pemLoad body = none := Option.not_isSome_iff_eq_none.1 (by rw [h]; simp)
        rw [hpem]
        exact ⟨_, rfl⟩

theorem make_csr_ok (salt : String) (μ : Int) (cnPfx : Option String) :
    ∃ c, AsymmetricKey.make_csr salt μ cnPfx = .ok c := ⟨_, rfl⟩

theorem submit_request_eq (cert₀ : Option String) (csr url pro : String)
    (net : NetOutcome) :
    (AsymmetricKey.submit_csr cert₀ csr url pro net).request
      = ⟨url, [("profile", pro)], [("Content-Type", "application/x-pem-file")], csr⟩ := by
  cases net with
  | netError c => rfl
  | response status reason body =>
      unfold AsymmetricKey.submit_csr raise_for_status
      simp only []
      by_cases h45 : 400 ≤ status ∧ status < 600
      · rw [if_pos h45]
      · rw [if_neg h45]
        cases Pem.pemLoad body with
        | none => rfl
        | some payload => rfl

theorem size_map_lookup_none (s : String) (h1 : s ≠ "small") (h2 : s ≠ "medium")
    (h3 : s ≠ "large") : Nagamani19.size_map.lookup s = none := by
  have b1 : (s == "small") = false := beq_eq_false_iff_ne.2 h1
  have b2 : (s == "medium") = false := beq_eq_false_iff_ne.2 h2
  have b3 : (s == "large") = false := beq_eq_false_iff_ne.2 h3
  simp [Nagamani19.size_map, List.lookup, b1, b2, b3]

/-! ## Claims -/

/-- C4 — code_bug.  The spec: `large` selects nanosecond precision, i.e. the
integer handed to the salted encoding is the duration scaled by 10^9.  The
code: `precisions` maps the key "ns" to 1_000_000, a microseconds scale, so a
duration of exactly one second is passed as 10^6, not 10^9 (its own key name
"ns" says nanoseconds).  `small` and `medium` conform (scales 1 and 10^3). -/
theorem c4_ns_scale_is_microseconds :
    Nagamani19.get_precision (some "large") = .ok "ns" ∧
    Nagamani.precisions.lookup "ns" = some 1000000 ∧
    Nagamani.durationScaled 1000000 1000000 = 1000000 ∧
    Nagamani.durationScaled 1000000 1000000 ≠ 1000000000 ∧
    Nagamani.precisions.lookup "s" = some 1 ∧
    Nagamani.precisions.lookup "ms" = some 1000 ∧
    (∀ salt : String, Nagamani.nagamani_id salt 1000000 "ns"
      = .ok (Nagamani.hashify salt [1000000])) := by
  refine ⟨rfl, rfl, by decide, by decide, rfl, rfl, ?_⟩
  intro salt
  show Except.ok (Nagamani.hashify salt [Nagamani.durationScaled 1000000 1000000]) = _
  rw [show Nagamani.durationScaled 1000000 1000000 = 1000000 by decide]

/-- C2 — code_bug.  On a network-level failure no response exists, and the
`except` handler's message interpolation references the unbound local
`response`: the caller sees `UnboundLocalError`, not the intended `ValueError`
carrying the cause — the cause is discarded (the result does not depend on
it). -/
theorem c2_netError_unboundLocal :
    (∀ (cert₀ : Option String) (csr url pro cause : String),
      (AsymmetricKey.submit_csr cert₀ csr url pro (.netError cause)).outcome
        = .error (.unboundLocal "response")) ∧
    (∀ m : String, PyError.unboundLocal "response" ≠ PyError.valueError m) :=
  ⟨fun _ _ _ _ _ => rfl, fun _ h => by cases h⟩

/-- C6 — counterexample.  The empty string is not one of the three recognized
size classes, yet generation does not fail on it: `selector or "large"`
replaces every falsy selector with the default, so `get_precision ""` yields
`"ns"` and generation succeeds. -/
theorem c6_counterexample :
    Nagamani19.get_precision (some "") = .ok "ns" ∧
    "" ∉ (["small", "medium", "large"] : List String) ∧
    (Nagamani19.generate "a" 1 (some "")).isOk = true :=
  ⟨rfl, by decide, rfl⟩

/-- C6 — amended.  For every truthy (non-empty) sizeClass outside
{small, medium, large}, identifier generation fails with the size-map lookup's
`KeyError` (the code's rendering of `InvalidPrecision`); for each of the three
recognized values it does not fail. -/
theorem c6_unrecognized_size_fails (s : String) (hne : s ≠ "")
    (hs : s ∉ (["small", "medium", "large"] : List String)) :
    (∀ (salt : String) (μ : Int),
      Nagamani19.generate salt μ (some s) = .error (.keyError s)) ∧
    (∀ t ∈ (["small", "medium", "large"] : List String),
      ∀ (salt : String) (μ : Int),
        (Nagamani19.generate salt μ (some t)).isOk = true) := by
  constructor
  · intro salt μ
    have hs1 : s ≠ "small" := fun e => hs (by simp [e])
    have hs2 : s ≠ "medium" := fun e => hs (by simp [e])
    have hs3 : s ≠ "large" := fun e => hs (by simp [e])
    unfold Nagamani19.generate Nagamani19.get_precision
    simp only []
    rw [if_neg hne, size_map_lookup_none s hs1 hs2 hs3]
    rfl
  · intro t ht salt μ
    simp only [List.mem_cons, List.not_mem_nil, or_false] at ht
    rcases ht with rfl | rfl | rfl <;> rfl

/-- Witness for the amended C6 at the spec's own example input `"bogus"`. -/
theorem c6_witness :
    Nagamani19.generate "somesalt" 42 (some "bogus") = .error (.keyError "bogus") :=
  (c6_unrecognized_size_fails "bogus" (by decide) (by decide)).1 "somesalt" 42

/-- C10 — confirmed.  The falsy size classes (`None`, `""`) are treated the
same: both select the default `large` precision and generation succeeds; a
lookup failure arises only for truthy values outside the map. -/
theorem c10_falsy_size_defaults :
    (∀ (salt : String) (μ : Int),
      Nagamani19.generate salt μ (some "") = Nagamani19.generate salt μ none) ∧
    Nagamani19.get_precision (some "") = .ok "ns" ∧
    Nagamani19.get_precision none = .ok "ns" ∧
    (∀ (salt : String) (μ : Int), (Nagamani19.generate salt μ none).isOk = true) ∧
    (∀ s : String, s ≠ "" → s ∉ (["small", "medium", "large"] : List String) →
      Nagamani19.get_precision (some s) = .error (.keyError s)) := by
  refine ⟨fun _ _ => rfl, rfl, rfl, fun _ _ => rfl, ?_⟩
  intro s hne hs
  have hs1 : s ≠ "small" := fun e => hs (by simp [e])
  have hs2 : s ≠ "medium" := fun e => hs (by simp [e])
  have hs3 : s ≠ "large" := fun e => hs (by simp [e])
  unfold Nagamani19.get_precision
  simp only []
  rw [if_neg hne, size_map_lookup_none s hs1 hs2 hs3]

/-- Witness for C10's conditional part at a concrete truthy non-key input. -/
theorem c10_witness :
    Nagamani19.get_precision (some "huge") = .error (.keyError "huge") :=
  c10_falsy_size_defaults.2.2.2.2 "huge" (by decide) (by decide)

/-- C1 — counterexample.  A 304 response is non-2xx, yet `raise_for_status`
only raises for statuses in [400, 600), so no rejection error carrying status
and body is raised: with a parseable body the submission simply succeeds. -/
theorem c1_counterexample :
    (AsymmetricKey.submit_csr none "csr" "http://ca/pki/RootCA/autosign" "server"
      (.response 304 "Not Modified" (Pem.pemSerialize "AAAA"))).outcome
      = .ok (Pem.pemSerialize "AAAA") ∧
    ¬ (200 ≤ 304 ∧ 304 < 300) :=
  ⟨rfl, by decide⟩

/-- C1 — amended.  For every response with status in [400, 600) — 4xx/5xx,
rather than every non-2xx — `submit_csr` raises a `ValueError` whose message
carries the HTTP status and the response body verbatim. -/
theorem c1_rejection_carries_status_and_body (cert₀ : Option String)
    (csr url pro reason body : String) (status : Nat)
    (h4 : 400 ≤ status) (h6 : status < 600) :
    (AsymmetricKey.submit_csr cert₀ csr url pro (.response status reason body)).outcome
      = .error (.valueError (rejectionMsg (httpErrorMsg status reason url) body)) ∧
    strInfix (toString status) (rejectionMsg (httpErrorMsg status reason url) body) ∧
    strInfix body (rejectionMsg (httpErrorMsg status reason url) body) := by
  refine ⟨?_, ?_, ?_⟩
  · unfold AsymmetricKey.submit_csr raise_for_status
    simp only []
    rw [if_pos ⟨h4, h6⟩]
  · refine ⟨"Automatically signing certificate failed: ".data,
      ((if status < 500 then " Client Error: " else " Server Error: ") ++ reason
        ++ " for url: " ++ url ++ ". Reason: " ++ body).data, ?_⟩
    simp [rejectionMsg, httpErrorMsg, String.data_append, List.append_assoc]
  · refine ⟨("Automatically signing certificate failed: "
      ++ httpErrorMsg status reason url ++ ". Reason: ").data, [], ?_⟩
    simp [rejectionMsg, String.data_append, List.append_assoc]

/-- Witness for the amended C1 at the spec's example: HTTP 400 with body
`"profile unknown"` — the error carries "400" and that exact reason string. -/
theorem c1_witness :
    400 ≤ 400 ∧ 400 < 600 ∧
    (AsymmetricKey.submit_csr none "csr" "http://ca/pki/RootCA/autosign" "server"
      (.response 400 "Bad Request" "profile unknown")).outcome
      = .error (.valueError (rejectionMsg
          (httpErrorMsg 400 "Bad Request" "http://ca/pki/RootCA/autosign")
          "profile unknown")) ∧
    strInfix "400" (rejectionMsg
      (httpErrorMsg 400 "Bad Request" "http://ca/pki/RootCA/autosign")
      "profile unknown") ∧
    strInfix "profile unknown" (rejectionMsg
      (httpErrorMsg 400 "Bad Request" "http://ca/pki/RootCA/autosign")
      "profile unknown") := by
  have h := c1_rejection_carries_status_and_body none "csr"
    "http://ca/pki/RootCA/autosign" "server" "Bad Request" "profile unknown" 400
    (by decide) (by decide)
  exact ⟨by decide, by decide, h.1, h.2.1, h.2.2⟩

/-- C3 — confirmed.  A 2xx response whose body does not decode as a PEM
certificate makes `submit_csr` raise the PEM parser's `ValueError` — a value
distinct from every rejection error the status check can raise — and the
certificate field is left unchanged: no Certificate is produced. -/
theorem c3_malformed_body_raises (cert₀ : Option String)
    (csr url pro reason body : String) (status : Nat)
    (h2 : 200 ≤ status) (h3 : status < 300) (hp : Pem.pemLoad body = none) :
    (AsymmetricKey.submit_csr cert₀ csr url pro (.response status reason body)).outcome
      = .error (.valueError pemLoadFailMsg) ∧
    (AsymmetricKey.submit_csr cert₀ csr url pro (.response status reason body)).cert
      = cert₀ ∧
    (∀ exMsg b : String,
      PyError.valueError pemLoadFailMsg ≠ PyError.valueError (rejectionMsg exMsg b)) := by
  have h45 : ¬ (400 ≤ status ∧ status < 600) := by omega
  refine ⟨?_, ?_, fun exMsg b => pemLoadFailMsg_ne_rejectionMsg exMsg b⟩
  · unfold AsymmetricKey.submit_csr raise_for_status
    simp only []
    rw [if_neg h45, hp]
  · unfold AsymmetricKey.submit_csr raise_for_status
    simp only []
    rw [if_neg h45, hp]

/-- Witness for C3: HTTP 200 with a non-certificate body raises the parse
error and sets no certificate. -/
theorem c3_witness :
    200 ≤ 200 ∧ 200 < 300 ∧ Pem.pemLoad "no certificate here" = none ∧
    (AsymmetricKey.submit_csr none "csr" "http://u" "server"
      (.response 200 "OK" "no certificate here")).outcome
      = .error (.valueError pemLoadFailMsg) ∧
    (AsymmetricKey.submit_csr none "csr" "http://u" "server"
      (.response 200 "OK" "no certificate here")).cert = none := by
  have h := c3_malformed_body_raises none "csr" "http://u" "server" "OK"
    "no certificate here" 200 (by decide) (by decide) rfl
  exact ⟨by decide, by decide, rfl, h.1, h.2.1⟩

/-- C9 — counterexample.  A CRLF-formatted PEM body is a valid PEM encoding of
the certificate (it parses to the same payload), but the bytes `submit_csr`
returns are the canonical LF serialization, which differ from that body:
parse-then-serialize is not the identity on every valid PEM body. -/
theorem c9_counterexample :
    Pem.pemLoad "-----BEGIN CERTIFICATE-----\r\nAAAA\r\n-----END CERTIFICATE-----\r\n"
      = some "AAAA" ∧
    (AsymmetricKey.submit_csr none "csr" "http://u" "server"
      (.response 201 "Created"
        "-----BEGIN CERTIFICATE-----\r\nAAAA\r\n-----END CERTIFICATE-----\r\n")).outcome
      = .ok (Pem.pemSerialize "AAAA") ∧
    Pem.pemSerialize "AAAA"
      ≠ "-----BEGIN CERTIFICATE-----\r\nAAAA\r\n-----END CERTIFICATE-----\r\n" :=
  ⟨rfl, rfl, by decide⟩

/-- C9 — amended.  On a 2xx response `submit_csr` returns the canonical PEM
re-serialization of the parsed certificate; whenever the body is itself in
canonical serialization form (LF endings, 64-character base64 lines), the
returned bytes equal the response body exactly. -/
theorem c9_canonical_body_roundtrips (cert₀ : Option String)
    (csr url pro reason payload : String) (status : Nat)
    (h2 : 200 ≤ status) (h3 : status < 300)
    (hne : payload.data ≠ []) (hb : ∀ c ∈ payload.data, Pem.base64Char c) :
    (AsymmetricKey.submit_csr cert₀ csr url pro
      (.response status reason (Pem.pemSerialize payload))).outcome
      = .ok (Pem.pemSerialize payload) := by
  have h45 : ¬ (400 ≤ status ∧ status < 600) := by omega
  unfold AsymmetricKey.submit_csr raise_for_status
  simp only []
  rw [if_neg h45, Pem.pemLoad_pemSerialize payload hne hb]

/-- Witness for the amended C9: the spec's mock — HTTP 201 with a canonical
PEM body — gets back exactly that body. -/
theorem c9_witness :
    200 ≤ 201 ∧ 201 < 300 ∧ ("MIIBfDCCASwCAQA=" : String).data ≠ [] ∧
    (∀ c ∈ ("MIIBfDCCASwCAQA=" : String).data, Pem.base64Char c) ∧
    (AsymmetricKey.submit_csr none "csr" "http://u" "server"
      (.response 201 "Created" (Pem.pemSerialize "MIIBfDCCASwCAQA="))).outcome
      = .ok (Pem.pemSerialize "MIIBfDCCASwCAQA=") := by
  refine ⟨by decide, by decide, by decide, by decide, ?_⟩
  exact c9_canonical_body_roundtrips none "csr" "http://u" "server" "Created"
    "MIIBfDCCASwCAQA=" 201 (by decide) (by decide) (by decide) (by decide)

/-- C5 — confirmed.  The CSR subject contains exactly one attribute, the
Common Name, equal to `"{p}-{id}"` for a truthy (non-empty) supplied
common-name p and to `{id}` otherwise, where `{id}` is the freshly
generated identifier: every character alphanumeric and, for any duration below
44^11 microseconds (≈ 41 millennia past the 2019 epoch), at most 12
characters. -/
theorem c5_subject_single_cn (salt : String) (μ : Int) (cnPfx : Option String)
    (h0 : 0 ≤ μ) (h1 : μ < 44 ^ 11) :
    ∃ id : String,
      Nagamani19.generate salt μ none = .ok id ∧
      id.data.all Char.isAlphanum = true ∧
      id.length ≤ 12 ∧
      AsymmetricKey.make_csr salt μ cnPfx
        = .ok ⟨[(commonNameOid,
            match cnPfx with
            | some p => if p = "" then id else p ++ "-" ++ id
            | none => id)], "SHA512"⟩ := by
  have hgen : Nagamani19.generate salt μ none
      = .ok (⟨Hashids.encodeCore salt.data [μ.toNat]⟩ : String) := by
    rw [Nagamani.generate_default_eq, Nagamani.durationScaled_ns,
      Nagamani.hashify_nonneg salt μ h0]
  have htn : μ.toNat < 44 ^ 11 := by
    have hcast : ((44 ^ 11 : Nat) : Int) = 44 ^ 11 := by norm_cast
    omega
  refine ⟨⟨Hashids.encodeCore salt.data [μ.toNat]⟩, hgen, ?_, ?_, ?_⟩
  · exact List.all_eq_true.2 (fun c hc => Hashids.encodeCore_alnum salt.data [μ.toNat] c hc)
  · show (Hashids.encodeCore salt.data [μ.toNat]).length ≤ 12
    exact Hashids.encodeCore_single_length salt.data μ.toNat htn
  · unfold AsymmetricKey.make_csr
    rw [hgen]
    rfl

/-- Witness for C5 at a concrete salt, timestamp and prefix `"node-a"`. -/
theorem c5_witness :
    (0 : Int) ≤ 1234567 ∧ (1234567 : Int) < 44 ^ 11 ∧
    ∃ id : String,
      Nagamani19.generate "ab12" 1234567 none = .ok id ∧
      id.data.all Char.isAlphanum = true ∧
      id.length ≤ 12 ∧
      AsymmetricKey.make_csr "ab12" 1234567 (some "node-a")
        = .ok ⟨[(commonNameOid, "node-a" ++ "-" ++ id)], "SHA512"⟩ := by
  refine ⟨by decide, by decide, ?_⟩
  obtain ⟨id, hgen, halnum, hlen, hcsr⟩ :=
    c5_subject_single_cn "ab12" 1234567 (some "node-a") (by decide) (by decide)
  exact ⟨id, hgen, halnum, hlen, by simpa using hcsr⟩

/-- C7 — counterexample.  When the CA base URL has a path component, the
autosign URL is not the base with `/pki/{N}/autosign` appended: `urljoin`
with an absolute-path reference discards the base's path. -/
theorem c7_counterexample :
    PkiClient.autocert_url "http://ca.example.org/acme" "RootCA"
      = "http://ca.example.org/pki/RootCA/autosign" ∧
    PkiClient.autocert_url "http://ca.example.org/acme" "RootCA"
      ≠ "http://ca.example.org/acme" ++ "/pki/" ++ "RootCA" ++ "/autosign" :=
  ⟨by decide, by decide⟩

/-- C7 — amended.  The submission POSTs to the base URL's scheme and
authority with the path replaced by `/pki/{N}/autosign` (equal to appending
when the base has no path, as here), passes `profile` through unchanged as a
query parameter, sends the `Content-Type: application/x-pem-file` header, and
the body is the raw CSR PEM bytes. -/
theorem c7_request_shape (scheme host name pro csr : String)
    (cert₀ : Option String) (net : NetOutcome)
    (h1 : scheme.data ≠ []) (h2 : ∀ c ∈ scheme.data, isSchemeChar c)
    (h3 : (scheme.data.headD ' ').isAlpha)
    (h4 : ∀ c ∈ host.data, (c != '/' && c != '?' && c != '#') = true) :
    PkiClient.autocert_url (scheme ++ "://" ++ host) name
      = scheme ++ "://" ++ host ++ ("/pki/" ++ name ++ "/autosign") ∧
    (AsymmetricKey.submit_csr cert₀ csr
        (PkiClient.autocert_url (scheme ++ "://" ++ host) name) pro net).request
      = ⟨scheme ++ "://" ++ host ++ ("/pki/" ++ name ++ "/autosign"),
          [("profile", pro)], [("Content-Type", "application/x-pem-file")], csr⟩ := by
  have hu : PkiClient.autocert_url (scheme ++ "://" ++ host) name
      = scheme ++ "://" ++ host ++ ("/pki/" ++ name ++ "/autosign") :=
    urljoinAbsPath_spec scheme host ("/pki/" ++ name ++ "/autosign") h1 h2 h3 h4
  refine ⟨hu, ?_⟩
  rw [hu]
  exact submit_request_eq cert₀ csr _ pro net

/-- Witness for the amended C7 at a concrete base URL, CA name and profile. -/
theorem c7_witness :
    PkiClient.autocert_url "https://ca.example.org:4343" "RootCA"
      = "https://ca.example.org:4343" ++ ("/pki/" ++ "RootCA" ++ "/autosign") ∧
    (AsymmetricKey.submit_csr none "THE-CSR-PEM"
        (PkiClient.autocert_url "https://ca.example.org:4343" "RootCA")
        "server" (.netError "refused")).request
      = ⟨"https://ca.example.org:4343" ++ ("/pki/" ++ "RootCA" ++ "/autosign"),
          [("profile", "server")],
          [("Content-Type", "application/x-pem-file")], "THE-CSR-PEM"⟩ := by
  have h := c7_request_shape "https" "ca.example.org:4343" "RootCA" "server"
    "THE-CSR-PEM" none (.netError "refused")
    (by decide) (by decide) (by decide) (by decide)
  exact ⟨h.1, h.2⟩

/-- C8 — confirmed.  If key generation or the CA submission fails, `mkcert`
propagates that very error to the caller and the filesystem is unchanged —
neither the private-key file nor the certificate file is written; the two
writes happen only on the success path after submission. -/
theorem c8_mkcert_no_partial_write (fs : FS) (base name kp cp pro : String)
    (cnPfx : Option String) (keyRes : Except PyError String) (salt : String)
    (μ : Int) (net : NetOutcome)
    (h : keyRes.isOk = false ∨ caAccepts net = false) :
    (PkiClient.mkcert fs base name kp cp pro cnPfx keyRes salt μ net).1 = fs ∧
    ∃ e, (PkiClient.mkcert fs base name kp cp pro cnPfx keyRes salt μ net).2
        = .error e ∧
      (keyRes = .error e ∨
        ∃ csr, AsymmetricKey.make_csr salt μ cnPfx = .ok csr ∧
          (AsymmetricKey.submit_csr none (AsymmetricKey.get_csr csr)
            (PkiClient.autocert_url base name) pro net).outcome = .error e) := by
  cases keyRes with
  | error e => exact ⟨rfl, e, rfl, Or.inl rfl⟩
  | ok keyPem =>
      have hcA : caAccepts net = false := by
        rcases h with h' | h'
        · simp [Except.isOk, Except.toBool] at h'
        · exact h'
      obtain ⟨c, hc⟩ := make_csr_ok salt μ cnPfx
      obtain ⟨e, he⟩ := submit_error_of_not_accepts none (AsymmetricKey.get_csr c)
        (PkiClient.autocert_url base name) pro net hcA
      unfold PkiClient.mkcert
      simp only []
      rw [hc]
      simp only []
      rw [he]
      exact ⟨rfl, e, rfl, Or.inr ⟨c, rfl, he⟩⟩

/-- Witness for C8: a failed key generation aborts the run with that error
and leaves the (empty) filesystem untouched. -/
theorem c8_witness :
    (Except.error (PyError.valueError "no entropy") : Except PyError String).isOk
        = false ∧
    (PkiClient.mkcert [] "http://ca" "Root" "key.pem" "cert.pem" "server" none
        (.error (.valueError "no entropy")) "salt" 0 (.netError "x")).1 = [] ∧
    ∃ e, (PkiClient.mkcert [] "http://ca" "Root" "key.pem" "cert.pem" "server" none
        (.error (.valueError "no entropy")) "salt" 0 (.netError "x")).2
        = .error e ∧
      ((Except.error (PyError.valueError "no entropy") : Except PyError String)
          = .error e ∨
        ∃ csr, AsymmetricKey.make_csr "salt" 0 none = .ok csr ∧
          (AsymmetricKey.submit_csr none (AsymmetricKey.get_csr csr)
            (PkiClient.autocert_url "http://ca" "Root") "server"
            (.netError "x")).outcome = .error e) := by
  have h := c8_mkcert_no_partial_write [] "http://ca" "Root" "key.pem" "cert.pem"
    "server" none (.error (.valueError "no entropy")) "salt" 0 (.netError "x")
    (Or.inl rfl)
  exact ⟨rfl, h.1, h.2⟩
